import Mathlib

/-!
Verification of the singular-integral store and cache of OpenModes
(`openmodes/operator/singularities.py`), together with spec-level models of
the mode-set and pole-refinement operations whose implementation lives
outside the provided sources.

The Python code is shallowly embedded: Python `dict`s become association
lists with unique keys in insertion order, numpy allocation-and-fill of the
compressed arrays becomes direct construction of the emitted lists, raised
exceptions become `Except` / `Option` results, and the process-wide cache
becomes explicit state threading.
-/

set_option linter.unusedVariables false

namespace OpenModes

/-- Shallow embedding of a Python `dict` with `Nat` keys: an association list
with unique keys, kept in insertion order.  Assigning to an existing key
overwrites the value in place (keeping its position, as Python dicts do);
assigning a fresh key appends it at the end. -/
def dictSet {α : Type} (k : Nat) (v : α) : List (Nat × α) → List (Nat × α)
  | [] => [(k, v)]
  | kv :: rest => if kv.1 = k then (k, v) :: rest else kv :: dictSet k v rest

/-- Lookup in the embedded dict; `none` plays the role of a raised `KeyError`. -/
def dictGet {α : Type} (k : Nat) : List (Nat × α) → Option α
  | [] => none
  | kv :: rest => if kv.1 = k then some kv.2 else dictGet k rest

/-- Keys of the embedded dict, in insertion order. -/
def dictKeys {α : Type} (d : List (Nat × α)) : List Nat :=
  d.map Prod.fst

/-- Embedding of Python `max(keys)`: `none` stands for the `ValueError`
raised by `max` on an empty sequence. -/
def pyMax : List Nat → Option Nat
  | [] => none
  | k :: ks => some (ks.foldl Nat.max k)

/-- Embedding of the memory order argument accepted by the numpy array
constructors used in `MultiSparse.to_csr` (row-major "C" or column-major
Fortran "F"). -/
inductive ArrOrder
  | C
  | F
deriving DecidableEq, Repr

/-- Embedding of the `MultiSparse` class of `singularities.py`: a sparse
matrix holding, per stored (row, col) position, one element of type `α`
(standing for the tuple of per-quantity sub-arrays).  `subarrays` records,
for each sub-array, the shape of each stored element (`none` when each
element is a scalar), exactly as passed to `MultiSparse.__init__`; `rows` is
the dictionary of dictionaries built by `__setitem__`. -/
structure MultiSparse (α : Type) where
  subarrays : List (Option (List Nat))
  rows : List (Nat × List (Nat × α))
deriving DecidableEq

namespace MultiSparse

variable {α : Type}

/-- Embedding of `MultiSparse.__setitem__`: store `item` at `(row, col)` in
the dictionary of dictionaries; the `KeyError` branch creates the row. -/
def setItem (m : MultiSparse α) (row col : Nat) (item : α) : MultiSparse α :=
  match dictGet row m.rows with
  | some d => { m with rows := dictSet row (dictSet col item d) m.rows }
  | none => { m with rows := m.rows ++ [(row, [(col, item)])] }

/-- Embedding of `MultiSparse.__getitem__`; `none` stands for `KeyError`. -/
def get (m : MultiSparse α) (row col : Nat) : Option α :=
  match dictGet row m.rows with
  | some d => dictGet col d
  | none => none

/-- Embedding of `MultiSparse.__len__`: the total number of stored items. -/
def size (m : MultiSparse α) : Nat :=
  (m.rows.map (fun rd => rd.2.length)).sum

/-- Items of one row of the store in dictionary order (empty when the row
does not exist), as traversed by the `to_csr` loop. -/
def rowItems (m : MultiSparse α) (r : Nat) : List (Nat × α) :=
  match dictGet r m.rows with
  | some d => d
  | none => []

/-- Running value of the `data_index` counter of `to_csr` after the rows
below `r` have been processed. -/
def prefLen (m : MultiSparse α) (r : Nat) : Nat :=
  ((List.range r).map (fun j => (m.rowItems j).length)).sum

/-- Entries emitted by the `to_csr` row loop: rows `0, 1, ..., num_rows - 1`
in ascending order, each row's columns in dictionary order. -/
def emitted (m : MultiSparse α) (numRows : Nat) : List (Nat × Nat × α) :=
  (List.range numRows).flatMap (fun r => (m.rowItems r).map (fun ci => (r, ci.1, ci.2)))

end MultiSparse

/-- Result of `MultiSparse.to_csr`: the per-quantity data arrays (here fused
into one list of per-entry `α` tuples, standing for the parallel numpy
arrays indexed by a common `data_index`), the shared column-index array, the
shared row-pointer array, the element shapes the data arrays were allocated
with, and the memory order they were allocated in. -/
structure CsrOut (α : Type) where
  subarrays : List (Option (List Nat))
  data : List α
  indices : List Nat
  indptr : List Nat
  order : ArrOrder
deriving DecidableEq

namespace MultiSparse

variable {α : Type}

/-- Embedding of `MultiSparse.to_csr`.  `none` stands for the `ValueError`
raised by `max(self.rows.keys())` when the store is empty.  The numpy
"allocate `num_objs` slots, then fill them at `data_index = 0, 1, ...`"
pattern is embedded as direct construction of the emitted entry list; the
`indptr` list starts at `0` and records the running `data_index` after each
row, exactly as the imperative loop appends it. -/
def to_csr (m : MultiSparse α) (order : ArrOrder) : Option (CsrOut α) :=
  match pyMax (dictKeys m.rows) with
  | none => none
  | some mx =>
    let numRows := mx + 1
    let es := m.emitted numRows
    some { subarrays := m.subarrays
           data := es.map (fun e => e.2.2)
           indices := es.map (fun e => e.2.1)
           indptr := 0 :: (List.range numRows).map (fun r => m.prefLen (r + 1))
           order := order }

end MultiSparse

/-- A store built by a sequence of `setItem` insertions, starting from the
empty `rows` dictionary created by `MultiSparse.__init__`. -/
def ofList {α : Type} (subs : List (Option (List Nat))) (l : List ((Nat × Nat) × α)) :
    MultiSparse α :=
  l.foldl (fun m kv => m.setItem kv.1.1 kv.1.2 kv.2) ⟨subs, []⟩

/-- Reconstruction of the (row, col, value) entries from the compressed
arrays returned by `to_csr`: for each row `r`, the slice of the zipped
index/data arrays between `indptr[r]` and `indptr[r+1]`. -/
def csrEntries {α : Type} (out : CsrOut α) : List (Nat × Nat × α) :=
  (List.range (out.indptr.length - 1)).flatMap (fun r =>
    (((out.indices.zip out.data).drop (out.indptr.getD r 0)).take
        (out.indptr.getD (r + 1) 0 - out.indptr.getD r 0)).map
      (fun cd => (r, cd.1, cd.2)))

/-- Lookup of the value at `(r, c)` in the mapping reconstructed from the
compressed arrays. -/
def csrGet {α : Type} (out : CsrOut α) (r c : Nat) : Option α :=
  ((csrEntries out).find? (fun e => e.1 == r && e.2.1 == c)).map (fun e => e.2.2)

/-- Modelled from the spec: the node-to-triangle adjacency
`basis.mesh.triangles_sharing_nodes()` (the mesh module is not among the
provided sources) — for a node, the set of triangles having it as a vertex,
represented as the ascending duplicate-free list of triangle indices. -/
def trianglesSharingNodes (polygons : List (List Nat)) (node : Nat) : List Nat :=
  (List.range polygons.length).filter (fun t => node ∈ polygons.getD t [])

/-- The Python set `sharing_triangles` for observer triangle `p`: the union
over the nodes of `p` of `sharing_nodes[node]`, i.e. every triangle sharing
at least one node with `p` (including `p` itself), as an ascending
duplicate-free list. -/
def sharingTriangles (polygons : List (List Nat)) (p : Nat) : List Nat :=
  (List.range polygons.length).filter
    (fun q => (polygons.getD p []).any (fun node => q ∈ trianglesSharingNodes polygons node))

/-- The (observer, source) pairs visited by the nested loop of
`singular_impedance_rwg`, flattened: observers `p` in ascending order, and
for each `p` the sources `q` of its sharing set. -/
def singularPairs (polygons : List (List Nat)) : List (Nat × Nat) :=
  (List.range polygons.length).flatMap
    (fun p => (sharingTriangles polygons p).map (fun q => (p, q)))

/-- The three `MultiSparse` stores built by `singular_impedance_rwg` before
conversion: the electric-field store holds per entry the pair
`(res[1], res[0])` (scalar potential, vector potential), the two
magnetic-field stores hold `res[3]` and `res[2]` respectively. -/
structure SingularStores (α : Type) where
  T_EFIE : MultiSparse (α × α)
  T_MFIE : MultiSparse α
  N_MFIE : MultiSparse α
deriving DecidableEq

/-- The empty stores created by `singular_impedance_rwg` for a requested
term count, with the element shapes passed to each `MultiSparse`. -/
def initStores (α : Type) (numTerms : Nat) : SingularStores α :=
  { T_EFIE := ⟨[some [numTerms], some [numTerms, 3, 3]], []⟩
    T_MFIE := ⟨[some [numTerms, 3, 3]], []⟩
    N_MFIE := ⟨[some [numTerms, 3, 3]], []⟩ }

/-- Body of the nested loop of `singular_impedance_rwg` for one
(observer, source) pair `(p, q)`.  `quad` is the external kernel
`face_integrals_yla_oijala`, applied to the source triangle's nodes, the
observer triangle's nodes and the observer's normal (the fixed quadrature
rule is folded into `quad`); its result is the 4-tuple
`(res[0], res[1], res[2], res[3])`.  For `q ≠ p` the magnetic-field stores
receive `res[3]` and `res[2]`; the electric-field store always receives
`(res[1], res[0])`. -/
def buildStep {Pt α : Type} [Inhabited Pt]
    (quad : List Pt → List Pt → Pt → α × α × α × α)
    (polygons : List (List Nat)) (nodes : List Pt) (normals : List Pt)
    (st : SingularStores α) (pq : Nat × Nat) : SingularStores α :=
  let p := pq.1
  let q := pq.2
  let normal := normals.getD p default
  let res := quad ((polygons.getD q []).map (fun n => nodes.getD n default))
    ((polygons.getD p []).map (fun n => nodes.getD n default)) normal
  let st' := if q ≠ p then
      { st with T_MFIE := st.T_MFIE.setItem p q res.2.2.2
                N_MFIE := st.N_MFIE.setItem p q res.2.2.1 }
    else st
  { st' with T_EFIE := st'.T_EFIE.setItem p q (res.2.1, res.1) }

/-- The store-building phase of `singular_impedance_rwg`: the nested
observer/source loop, flattened over `singularPairs`. -/
def buildSingularTerms {Pt α : Type} [Inhabited Pt]
    (quad : List Pt → List Pt → Pt → α × α × α × α)
    (polygons : List (List Nat)) (nodes : List Pt) (normals : List Pt)
    (numTerms : Nat) : SingularStores α :=
  (singularPairs polygons).foldl (buildStep quad polygons nodes normals)
    (initStores α numTerms)

/-- Errors raised by `singular_impedance_rwg`: the `ValueError` for a basis
that is not RWG based (the `UnsupportedBasisKind` failure of the spec), and
the `ValueError` raised by `max` inside `to_csr` when some store is empty. -/
inductive SingError
  | unsupportedBasis
  | emptyMaxArg
deriving DecidableEq, Repr

/-- The basis-function object as consumed by `singular_impedance_rwg`:
`isLinearTriangle` embeds the `isinstance(basis, LinearTriangleBasis)` test
(the basis module is not among the provided sources), `id` the stable
identity used in the cache key, and the mesh data used by the loop. -/
structure Basis (Pt : Type) where
  isLinearTriangle : Bool
  id : Nat
  polygons : List (List Nat)
  nodes : List Pt

/-- The cache key `unique_id`:
`("RWG", basis.id, rel_tol, normals_hash, num_terms)`. -/
abbrev CacheKey := String × Nat × ℚ × String × Nat

/-- The value of `singular_impedance_rwg` on success: the dictionary with
exactly the three operator labels "T_EFIE", "T_MFIE" and "N_MFIE", each
mapped to its finalized compressed store. -/
structure SingularCsr (α : Type) where
  T_EFIE : CsrOut (α × α)
  T_MFIE : CsrOut α
  N_MFIE : CsrOut α
deriving DecidableEq

instance {α : Type} : Inhabited (CsrOut α) :=
  ⟨⟨[], [], [], [], ArrOrder.C⟩⟩

instance {α : Type} : Inhabited (SingularCsr α) :=
  ⟨⟨default, default, default⟩⟩

/-- The process-wide dictionary `cached_singular_terms`, embedded as an
association list in insertion order. -/
abbrev Cache (α : Type) : Type :=
  List (CacheKey × SingularCsr α)

/-- Lookup of a key in the cache (`unique_id in cached_singular_terms`
followed by indexing). -/
def cacheLookup {α : Type} (key : CacheKey) : Cache α → Option (SingularCsr α)
  | [] => none
  | kv :: rest => if kv.1 = key then some kv.2 else cacheLookup key rest

/-- Embedding of `singular_impedance_rwg`.  `sha1hex` is the fingerprint
`hashlib.sha1(normals).hexdigest()`; `quad` the external quadrature kernel;
the process-wide cache is threaded explicitly and returned (unchanged when
an exception propagates).  The basis-kind test comes first, before the cache
is consulted; on a cache hit the stored object is returned as is; on a miss
the stores are built, converted with `order="F"`, recorded in the cache and
returned. -/
def singular_impedance_rwg {Pt α : Type} [Inhabited Pt]
    (sha1hex : List Pt → String)
    (quad : List Pt → List Pt → Pt → α × α × α × α)
    (cache : Cache α) (basis : Basis Pt) (num_terms : Nat) (rel_tol : ℚ)
    (normals : List Pt) : Except SingError (SingularCsr α) × Cache α :=
  if basis.isLinearTriangle = false then (Except.error SingError.unsupportedBasis, cache)
  else
    let unique_id : CacheKey := ("RWG", basis.id, rel_tol, sha1hex normals, num_terms)
    match cacheLookup unique_id cache with
    | some r => (Except.ok r, cache)
    | none =>
      let st := buildSingularTerms quad basis.polygons basis.nodes normals num_terms
      match st.T_EFIE.to_csr ArrOrder.F, st.T_MFIE.to_csr ArrOrder.F,
          st.N_MFIE.to_csr ArrOrder.F with
      | some a, some b, some c =>
        (Except.ok ⟨a, b, c⟩, cache ++ [(unique_id, ⟨a, b, c⟩)])
      | _, _, _ => (Except.error SingError.emptyMaxArg, cache)

/-- Complex scalars for the mode-set model, as pairs of rationals
(real part, imaginary part). -/
abbrev CC : Type := ℚ × ℚ

/-- Complex conjugation on the rational-pair model. -/
def conjC (z : CC) : CC :=
  (z.1, -z.2)

/-- A refined mode: complex eigenfrequency `s`, right eigenvector `vr` and
left eigenvector `vl`. -/
structure Mode where
  s : CC
  vr : List CC
  vl : List CC
deriving DecidableEq

/-- Conjugate of a mode: `(s*, v_r*, v_l*)`. -/
def Mode.conj (m : Mode) : Mode :=
  ⟨conjC m.s, m.vr.map conjC, m.vl.map conjC⟩

/-- Componentwise numerical closeness of two complex values, within a
tolerance `tol`. -/
def closeTo (tol : ℚ) (a b : CC) : Bool :=
  decide (|a.1 - b.1| ≤ tol) && decide (|a.2 - b.2| ≤ tol)

/-- Whether some mode of the set `M` already has an eigenfrequency within
tolerance of the conjugate of `m`'s eigenfrequency. -/
def hasConjugate (tol : ℚ) (M : List Mode) (m : Mode) : Bool :=
  M.any (fun m' => closeTo tol m'.s (conjC m.s))

/-- Modelled from the spec: `add_conjugates()` of the Mode Set (its
implementation is not among the provided sources, only callers are) — for
every mode `(s, v_r, v_l)` not already paired with its conjugate within the
set (compared by a numerical tolerance on `s`), append the new mode
`(s*, v_r*, v_l*)`. -/
def addConjugates (tol : ℚ) (M : List Mode) : List Mode :=
  M ++ (M.filter (fun m => !hasConjugate tol M m)).map Mode.conj

/-- Relative-convergence test of the pole-refinement iteration: the change
from `s` to `s'` is below `tol` relative to `s'` (ℓ¹ magnitudes on the
rational-pair complex model). -/
def convergedStep (tol : ℚ) (s s' : CC) : Bool :=
  decide (|s'.1 - s.1| + |s'.2 - s.2| ≤ tol * (|s'.1| + |s'.2|))

/-- Modelled from the spec: one mode's refinement loop of the Pole Refiner
(its implementation is not among the provided sources, only callers are) —
iterate the update map `step` from the estimate until the relative change in
`s` is below the requested tolerance, giving up with `none` (the
`ConvergenceFailure` of the spec) once `max_iter` iterations are exhausted. -/
def refineOne (step : CC → CC) (tol : ℚ) : Nat → CC → Option CC
  | 0, _ => none
  | Nat.succ k, s =>
    let s' := step s
    if convergedStep tol s s' then some s' else refineOne step tol k s'

/-- Modelled from the spec: the Pole Refiner over an ordered sequence of
estimates — refine each estimate with the iteration budget `max_iter`, and
drop (rather than report as an error) every estimate whose iteration fails
to converge within the budget. -/
def refinePoles (step : CC → CC) (tol : ℚ) (max_iter : Nat)
    (estimates : List CC) : List CC :=
  estimates.filterMap (refineOne step tol max_iter)

/-! ### Lemmas about the embedded dictionaries -/

section DictLemmas

variable {α : Type}

theorem dictGet_dictSet_self (k : Nat) (v : α) (d : List (Nat × α)) :
    dictGet k (dictSet k v d) = some v := by
  induction d with
  | nil => simp [dictSet, dictGet]
  | cons kv rest ih =>
    simp only [dictSet]
    by_cases h : kv.1 = k
    · simp [dictGet, h]
    · simp [dictGet, h, ih]

theorem dictGet_dictSet_ne {k' k : Nat} (h : k' ≠ k) (v : α) (d : List (Nat × α)) :
    dictGet k' (dictSet k v d) = dictGet k' d := by
  have h1 : ¬(k = k') := fun hh => h hh.symm
  induction d with
  | nil => simp [dictSet, dictGet, h1]
  | cons kv rest ih =>
    simp only [dictSet]
    by_cases hk : kv.1 = k
    · have h2 : ¬(kv.1 = k') := by rw [hk]; exact h1
      simp only [if_pos hk, dictGet, if_neg h1, if_neg h2]
    · simp only [if_neg hk, dictGet]
      by_cases hk' : kv.1 = k'
      · rw [if_pos hk', if_pos hk']
      · rw [if_neg hk', if_neg hk', ih]

theorem dictGet_append (k : Nat) (d1 d2 : List (Nat × α)) :
    dictGet k (d1 ++ d2) = (dictGet k d1).or (dictGet k d2) := by
  induction d1 with
  | nil => simp [dictGet]
  | cons kv rest ih =>
    simp only [List.cons_append, dictGet]
    by_cases h : kv.1 = k
    · simp [h]
    · simp [h, ih]

theorem dictGet_eq_none_iff {k : Nat} {d : List (Nat × α)} :
    dictGet k d = none ↔ k ∉ dictKeys d := by
  induction d with
  | nil => simp [dictGet, dictKeys]
  | cons kv rest ih =>
    simp only [dictGet, dictKeys, List.map_cons, List.mem_cons]
    by_cases h : kv.1 = k
    · simp [h]
    · simp only [if_neg h, ih, dictKeys]
      constructor
      · intro hn hc
        rcases hc with hc | hc
        · exact h hc.symm
        · exact hn hc
      · intro hn hc
        exact hn (Or.inr hc)

theorem dictKeys_dictSet_of_mem {k : Nat} {d : List (Nat × α)} (h : k ∈ dictKeys d)
    (v : α) : dictKeys (dictSet k v d) = dictKeys d := by
  induction d with
  | nil => simp [dictKeys] at h
  | cons kv rest ih =>
    simp only [dictSet]
    by_cases hk : kv.1 = k
    · simp [dictKeys, hk]
    · have hmem : k ∈ dictKeys rest := by
        simp only [dictKeys, List.map_cons, List.mem_cons] at h
        rcases h with h | h
        · exact absurd h.symm hk
        · exact h
      have hrec := ih hmem
      simp only [dictKeys] at hrec
      simp [dictKeys, hk, hrec]

theorem dictKeys_dictSet_of_not_mem {k : Nat} {d : List (Nat × α)} (h : k ∉ dictKeys d)
    (v : α) : dictKeys (dictSet k v d) = dictKeys d ++ [k] := by
  induction d with
  | nil => simp [dictSet, dictKeys]
  | cons kv rest ih =>
    have hk : kv.1 ≠ k := by
      intro hh
      exact h (by simp [dictKeys, hh])
    have hmem : k ∉ dictKeys rest := by
      intro hh
      refine h ?_
      simp only [dictKeys, List.map_cons, List.mem_cons]
      exact Or.inr hh
    have hrec := ih hmem
    simp only [dictKeys] at hrec
    simp [dictSet, dictKeys, hk, hrec]

theorem dictSet_ne_nil (k : Nat) (v : α) (d : List (Nat × α)) :
    dictSet k v d ≠ [] := by
  cases d with
  | nil => simp [dictSet]
  | cons kv rest =>
    simp only [dictSet]
    split <;> simp

end DictLemmas

/-! ### Lemmas about `MultiSparse` insertion and lookup -/

namespace MultiSparse

variable {α : Type}

theorem get_eq_bind (m : MultiSparse α) (row col : Nat) :
    m.get row col = (dictGet row m.rows).bind (fun d => dictGet col d) := by
  unfold get
  cases dictGet row m.rows <;> rfl

theorem rowItems_eq_getD (m : MultiSparse α) (r : Nat) :
    m.rowItems r = (dictGet r m.rows).getD [] := by
  unfold rowItems
  cases dictGet r m.rows <;> rfl

theorem rows_setItem (m : MultiSparse α) (r c : Nat) (it : α) :
    (m.setItem r c it).rows =
      match dictGet r m.rows with
      | some d => dictSet r (dictSet c it d) m.rows
      | none => m.rows ++ [(r, [(c, it)])] := by
  unfold setItem
  cases dictGet r m.rows <;> rfl

theorem get_setItem_self (m : MultiSparse α) (r c : Nat) (it : α) :
    (m.setItem r c it).get r c = some it := by
  rw [get_eq_bind, rows_setItem]
  cases h : dictGet r m.rows with
  | some d => simp [dictGet_dictSet_self]
  | none =>
    rw [dictGet_append, h, Option.none_or]
    simp [dictGet]

theorem get_setItem_ne (m : MultiSparse α) {r c r' c' : Nat} (h : (r', c') ≠ (r, c))
    (it : α) : (m.setItem r c it).get r' c' = m.get r' c' := by
  rw [get_eq_bind, get_eq_bind, rows_setItem]
  cases hr : dictGet r m.rows with
  | some d =>
    by_cases hrr : r' = r
    · subst hrr
      have hcc : c' ≠ c := fun hh => h (by rw [hh])
      rw [dictGet_dictSet_self, hr]
      simp [dictGet_dictSet_ne hcc]
    · rw [dictGet_dictSet_ne hrr]
  | none =>
    by_cases hrr : r' = r
    · subst hrr
      have hcc : c' ≠ c := fun hh => h (by rw [hh])
      rw [dictGet_append, hr, Option.none_or]
      simp [dictGet, Ne.symm hcc]
    · rw [dictGet_append]
      have hnone : dictGet r' [(r, [(c, it)])] = none := by
        have : ¬(r = r') := fun hh => hrr hh.symm
        simp [dictGet, this]
      rw [hnone, Option.or_none]

theorem subarrays_setItem (m : MultiSparse α) (r c : Nat) (it : α) :
    (m.setItem r c it).subarrays = m.subarrays := by
  unfold setItem
  cases dictGet r m.rows <;> rfl

theorem rows_setItem_ne_nil (m : MultiSparse α) (r c : Nat) (it : α) :
    (m.setItem r c it).rows ≠ [] := by
  rw [rows_setItem]
  cases dictGet r m.rows with
  | some d => exact dictSet_ne_nil _ _ _
  | none => simp

theorem rowsKeys_setItem_nodup (m : MultiSparse α) (r c : Nat) (it : α)
    (h : (dictKeys m.rows).Nodup) : (dictKeys (m.setItem r c it).rows).Nodup := by
  rw [rows_setItem]
  cases hr : dictGet r m.rows with
  | some d =>
    have hmem : r ∈ dictKeys m.rows := by
      by_contra hh
      rw [dictGet_eq_none_iff.mpr hh] at hr
      exact Option.noConfusion hr
    simpa [dictKeys_dictSet_of_mem hmem] using h
  | none =>
    have hmem : r ∉ dictKeys m.rows := dictGet_eq_none_iff.mp hr
    have hkeys : dictKeys (m.rows ++ [(r, [(c, it)])]) = dictKeys m.rows ++ [r] := by
      simp [dictKeys]
    rw [hkeys]
    simp only [List.nodup_append]
    exact ⟨h, by simp, by simpa using hmem⟩

end MultiSparse

/-! ### Invariants of stores built by insertion sequences -/

theorem ofList_rowsKeys_nodup {α : Type} (subs : List (Option (List Nat)))
    (l : List ((Nat × Nat) × α)) : (dictKeys (ofList subs l).rows).Nodup := by
  suffices h : ∀ (m : MultiSparse α), (dictKeys m.rows).Nodup →
      (dictKeys (l.foldl (fun m kv => m.setItem kv.1.1 kv.1.2 kv.2) m).rows).Nodup by
    exact h ⟨subs, []⟩ (by simp [dictKeys])
  induction l with
  | nil =>
    intro m hm
    simpa using hm
  | cons kv rest ih =>
    intro m hm
    exact ih _ (m.rowsKeys_setItem_nodup kv.1.1 kv.1.2 kv.2 hm)

theorem ofList_rows_eq_nil_iff {α : Type} (subs : List (Option (List Nat)))
    (l : List ((Nat × Nat) × α)) : (ofList subs l).rows = [] ↔ l = [] := by
  cases l with
  | nil => simp [ofList]
  | cons kv rest =>
    simp only [ofList, List.foldl_cons]
    constructor
    · intro h
      exfalso
      revert h
      suffices hgen : ∀ (m : MultiSparse α), m.rows ≠ [] →
          (rest.foldl (fun m kv => m.setItem kv.1.1 kv.1.2 kv.2) m).rows ≠ [] by
        exact hgen _ (MultiSparse.rows_setItem_ne_nil _ _ _ _)
      induction rest with
      | nil =>
        intro m hm
        simpa using hm
      | cons kv2 rest2 ih =>
        intro m hm
        exact ih _ (MultiSparse.rows_setItem_ne_nil _ _ _ _)
    · intro h
      exact absurd h (by simp)

theorem ofList_subarrays {α : Type} (subs : List (Option (List Nat)))
    (l : List ((Nat × Nat) × α)) : (ofList subs l).subarrays = subs := by
  suffices h : ∀ (m : MultiSparse α),
      (l.foldl (fun m kv => m.setItem kv.1.1 kv.1.2 kv.2) m).subarrays = m.subarrays by
    exact h ⟨subs, []⟩
  induction l with
  | nil =>
    intro m
    rfl
  | cons kv rest ih =>
    intro m
    rw [List.foldl_cons, ih, MultiSparse.subarrays_setItem]

/-! ### Lemmas about `pyMax` -/

theorem pyMax_eq_none_iff {l : List Nat} : pyMax l = none ↔ l = [] := by
  cases l <;> simp [pyMax]

theorem foldl_max_le_self (ks : List Nat) (a : Nat) :
    a ≤ ks.foldl Nat.max a := by
  induction ks generalizing a with
  | nil => simp
  | cons b bs ih =>
    simp only [List.foldl_cons]
    exact le_trans (Nat.le_max_left a b) (ih (Nat.max a b))

theorem le_of_mem_pyMax {l : List Nat} {mx x : Nat} (h : pyMax l = some mx)
    (hx : x ∈ l) : x ≤ mx := by
  cases l with
  | nil => simp at hx
  | cons k ks =>
    simp only [pyMax, Option.some.injEq] at h
    subst h
    have key : ∀ (ks : List Nat) (a y : Nat), y ∈ ks → y ≤ ks.foldl Nat.max a := by
      intro ks
      induction ks with
      | nil =>
        intro a y hy
        simp at hy
      | cons b bs ih =>
        intro a y hy
        simp only [List.foldl_cons]
        rcases List.mem_cons.mp hy with hy | hy
        · subst hy
          exact le_trans (Nat.le_max_right a y) (foldl_max_le_self bs (Nat.max a y))
        · exact ih (Nat.max a b) y hy
    rcases List.mem_cons.mp hx with hx | hx
    · subst hx
      exact foldl_max_le_self ks x
    · exact key ks k x hx

/-! ### Structure of the compressed output of `to_csr` -/

theorem getD_map_range {β : Type} (f : Nat → β) (dflt : β) {i n : Nat} (h : i < n) :
    ((List.range n).map f).getD i dflt = f i := by
  rw [List.getD_eq_getElem?_getD, List.getElem?_map, List.getElem?_range h]
  rfl

/-- Dropping a flattened prefix of blocks and taking one block's length
recovers that block. -/
theorem flatten_drop_take {β : Type} (bs : List (List β)) (r : Nat) (h : r < bs.length) :
    ((bs.flatten.drop (((bs.take r).map List.length).sum)).take (bs.getD r []).length)
      = bs.getD r [] := by
  induction bs generalizing r with
  | nil => simp at h
  | cons b rest ih =>
    cases r with
    | zero =>
      simp only [List.take_zero, List.map_nil, List.sum_nil, List.drop_zero,
        List.flatten_cons, List.getD_cons_zero]
      exact List.take_left b rest.flatten
    | succ r =>
      have hr : r < rest.length := by simpa using h
      simp only [List.take_succ_cons, List.map_cons, List.sum_cons, List.flatten_cons,
        List.getD_cons_succ]
      rw [List.drop_append]
      exact ih r hr

namespace MultiSparse

variable {α : Type}

theorem prefLen_succ (m : MultiSparse α) (r : Nat) :
    m.prefLen (r + 1) = m.prefLen r + (m.rowItems r).length := by
  unfold prefLen
  rw [List.range_succ, List.map_append, List.sum_append]
  simp

theorem prefLen_mono (m : MultiSparse α) {i j : Nat} (h : i ≤ j) :
    m.prefLen i ≤ m.prefLen j := by
  obtain ⟨k, rfl⟩ : ∃ k, j = i + k := ⟨j - i, by omega⟩
  clear h
  induction k with
  | zero => exact le_refl _
  | succ k ih =>
    have hs := m.prefLen_succ (i + k)
    calc m.prefLen i ≤ m.prefLen (i + k) := ih
      _ ≤ m.prefLen (i + k + 1) := by rw [hs]; omega

theorem emitted_length (m : MultiSparse α) (n : Nat) :
    (m.emitted n).length = m.prefLen n := by
  unfold emitted prefLen
  rw [List.length_flatMap]
  apply congrArg List.sum
  apply List.map_congr_left
  intro a _
  simp

/-- The value `to_csr` returns when the store is non-empty, in terms of the
emitted entry list. -/
theorem to_csr_eq (m : MultiSparse α) (ord : ArrOrder) {mx : Nat}
    (h : pyMax (dictKeys m.rows) = some mx) :
    m.to_csr ord = some ⟨m.subarrays,
      (m.emitted (mx + 1)).map (fun e => e.2.2),
      (m.emitted (mx + 1)).map (fun e => e.2.1),
      0 :: (List.range (mx + 1)).map (fun r => m.prefLen (r + 1)),
      ord⟩ := by
  unfold to_csr
  rw [h]

/-- The row-pointer list, rewritten as the running counter sampled at
`0, 1, ..., num_rows`. -/
theorem indptr_eq (m : MultiSparse α) (n : Nat) :
    (0 :: (List.range n).map (fun r => m.prefLen (r + 1)))
      = (List.range (n + 1)).map (fun r => m.prefLen r) := by
  rw [List.range_succ_eq_map, List.map_cons, List.map_map]
  have h0 : m.prefLen 0 = 0 := by
    unfold prefLen
    simp
  rw [h0]
  rfl

/-- The reconstruction of the emitted entries from the compressed arrays is
exact: slicing the zipped index/data arrays at the row-pointer boundaries
recovers precisely the entries the conversion loop emitted. -/
theorem csrEntries_eq_emitted (m : MultiSparse α) (ord : ArrOrder) {mx : Nat}
    (hmx : pyMax (dictKeys m.rows) = some mx) (out : CsrOut α)
    (hout : m.to_csr ord = some out) :
    csrEntries out = m.emitted (mx + 1) := by
  rw [to_csr_eq m ord hmx] at hout
  have hout' := Option.some.inj hout
  subst hout'
  unfold csrEntries
  simp only []
  set n := mx + 1 with hn
  have hlen : (0 :: (List.range n).map (fun r => m.prefLen (r + 1))).length - 1 = n := by
    simp
  rw [hlen]
  have hzip : ((m.emitted n).map (fun e => e.2.1)).zip ((m.emitted n).map (fun e => e.2.2))
      = ((List.range n).map (fun r => m.rowItems r)).flatten := by
    rw [List.zip_map']
    unfold emitted
    rw [List.map_flatMap, List.flatMap_def]
    apply congrArg List.flatten
    apply List.map_congr_left
    intro r _
    rw [List.map_map]
    simp
  rw [hzip]
  have hptr : ∀ i, i < n + 1 →
      (0 :: (List.range n).map (fun r => m.prefLen (r + 1))).getD i 0 = m.prefLen i := by
    intro i hi
    rw [indptr_eq]
    exact getD_map_range _ _ hi
  unfold emitted
  rw [List.flatMap_def, List.flatMap_def]
  apply congrArg List.flatten
  apply List.map_congr_left
  intro r hr
  have hrn : r < n := List.mem_range.mp hr
  rw [hptr r (Nat.lt_succ_of_lt hrn), hptr (r + 1) (Nat.succ_lt_succ hrn)]
  have htake : m.prefLen (r + 1) - m.prefLen r = (m.rowItems r).length := by
    rw [prefLen_succ]
    omega
  rw [htake]
  have hdrop : m.prefLen r
      = ((((List.range n).map (fun j => m.rowItems j)).take r).map List.length).sum := by
    rw [← List.map_take, List.take_range, Nat.min_eq_left (le_of_lt hrn), List.map_map]
    unfold prefLen
    rfl
  have hblock : ((List.range n).map (fun j => m.rowItems j)).getD r [] = m.rowItems r :=
    getD_map_range _ _ hrn
  rw [hdrop]
  rw [show (m.rowItems r).length
      = ((((List.range n).map (fun j => m.rowItems j)).getD r []).length) by rw [hblock]]
  rw [flatten_drop_take _ r (by simpa using hrn), hblock]

end MultiSparse

/-! ### Lookup in the emitted entries -/

theorem find?_key_eq_dictGet {α : Type} (c : Nat) (d : List (Nat × α)) :
    d.find? (fun ci => ci.1 == c) = (dictGet c d).map (fun it => (c, it)) := by
  induction d with
  | nil => simp [dictGet]
  | cons kv rest ih =>
    by_cases h : kv.1 = c
    · have hkv : kv = (c, kv.2) := by rw [← h]
      rw [List.find?_cons_of_pos _ (by simp [h])]
      simp only [dictGet, if_pos h, Option.map_some']
      exact congrArg some hkv
    · simp [List.find?_cons, dictGet, h, ih]

namespace MultiSparse

variable {α : Type}

theorem emitted_succ (m : MultiSparse α) (n : Nat) :
    m.emitted (n + 1) = m.emitted n ++ (m.rowItems n).map (fun ci => (n, ci.1, ci.2)) := by
  unfold emitted
  rw [List.range_succ, List.flatMap_append]
  simp

theorem find?_emitted_ge (m : MultiSparse α) {n r : Nat} (c : Nat) (h : n ≤ r) :
    (m.emitted n).find? (fun e => e.1 == r && e.2.1 == c) = none := by
  rw [List.find?_eq_none]
  intro x hx
  unfold emitted at hx
  rw [List.mem_flatMap] at hx
  obtain ⟨a, ha, hxa⟩ := hx
  obtain ⟨ci, hci, rfl⟩ := List.mem_map.mp hxa
  have han : a < n := List.mem_range.mp ha
  have : a ≠ r := by omega
  simp [this]

theorem find?_emitted_lt (m : MultiSparse α) {n r : Nat} (c : Nat) (h : r < n) :
    (m.emitted n).find? (fun e => e.1 == r && e.2.1 == c)
      = (dictGet c (m.rowItems r)).map (fun it => (r, c, it)) := by
  induction n with
  | zero => omega
  | succ n ih =>
    rw [emitted_succ, List.find?_append]
    by_cases hr : r < n
    · rw [ih hr]
      cases hd : dictGet c (m.rowItems r) with
      | some it => simp
      | none =>
        simp only [Option.map_none', Option.none_or]
        rw [List.find?_eq_none]
        intro x hx
        obtain ⟨ci, hci, rfl⟩ := List.mem_map.mp hx
        have : n ≠ r := by omega
        simp [this]
    · have hrn : r = n := by omega
      subst hrn
      rw [m.find?_emitted_ge c (le_refl r), Option.none_or, List.find?_map]
      have hcomp : ((fun e : Nat × Nat × α => e.1 == r && e.2.1 == c) ∘
          (fun ci : Nat × α => (r, ci.1, ci.2))) = (fun ci : Nat × α => ci.1 == c) := by
        funext ci
        simp
      rw [hcomp, find?_key_eq_dictGet, Option.map_map]
      cases dictGet c (m.rowItems r) <;> rfl

theorem get_eq_dictGet_rowItems (m : MultiSparse α) (r c : Nat) :
    m.get r c = dictGet c (m.rowItems r) := by
  rw [get_eq_bind, rowItems_eq_getD]
  cases dictGet r m.rows with
  | some d => rfl
  | none => simp [dictGet]

theorem get_none_of_pyMax_lt (m : MultiSparse α) {mx : Nat}
    (h : pyMax (dictKeys m.rows) = some mx) {r : Nat} (hr : mx < r) (c : Nat) :
    m.get r c = none := by
  rw [get_eq_bind]
  cases hd : dictGet r m.rows with
  | none => rfl
  | some d =>
    exfalso
    have hmem : r ∈ dictKeys m.rows := by
      by_contra hh
      rw [dictGet_eq_none_iff.mpr hh] at hd
      exact Option.noConfusion hd
    have := le_of_mem_pyMax h hmem
    omega

/-- Round-trip of the compressed-row conversion: the mapping reconstructed
from the arrays returned by `to_csr` is the mapping held by the store. -/
theorem csrGet_eq_get (m : MultiSparse α) (ord : ArrOrder) (out : CsrOut α)
    (hout : m.to_csr ord = some out) (r c : Nat) :
    csrGet out r c = m.get r c := by
  cases hmx : pyMax (dictKeys m.rows) with
  | none =>
    unfold to_csr at hout
    rw [hmx] at hout
    exact Option.noConfusion hout
  | some mx =>
    unfold csrGet
    rw [csrEntries_eq_emitted m ord hmx out hout]
    by_cases hr : r < mx + 1
    · rw [find?_emitted_lt m c hr, Option.map_map, get_eq_dictGet_rowItems]
      cases dictGet c (m.rowItems r) <;> rfl
    · rw [find?_emitted_ge m c (by omega), get_none_of_pyMax_lt m hmx (by omega)]
      rfl

end MultiSparse

/-! ### Counting the emitted entries -/

theorem ite_sum_range (n k cst : Nat) :
    ((List.range n).map (fun r => if k = r then cst else 0)).sum
      = if k < n then cst else 0 := by
  induction n with
  | zero => simp
  | succ n ih =>
    rw [List.range_succ, List.map_append, List.sum_append, ih]
    simp only [List.map_cons, List.map_nil, List.sum_cons, List.sum_nil]
    split_ifs <;> omega

theorem sum_dictGetLen {α : Type} (n : Nat) (d : List (Nat × List (Nat × α)))
    (hnd : (dictKeys d).Nodup) (hlt : ∀ k ∈ dictKeys d, k < n) :
    ((List.range n).map (fun r => ((dictGet r d).getD []).length)).sum
      = (d.map (fun rd => rd.2.length)).sum := by
  induction d with
  | nil => simp [dictGet]
  | cons kv rest ih =>
    have hcons : dictKeys (kv :: rest) = kv.1 :: dictKeys rest := by
      simp [dictKeys]
    rw [hcons] at hnd hlt
    have hk : kv.1 ∉ dictKeys rest := (List.nodup_cons.mp hnd).1
    have hnd' : (dictKeys rest).Nodup := (List.nodup_cons.mp hnd).2
    have hlt' : ∀ k ∈ dictKeys rest, k < n := fun k hk2 => hlt k (List.mem_cons_of_mem _ hk2)
    have hkn : kv.1 < n := hlt kv.1 (List.mem_cons_self _ _)
    have hpoint : ∀ r, ((dictGet r (kv :: rest)).getD []).length
        = ((dictGet r rest).getD []).length + (if kv.1 = r then kv.2.length else 0) := by
      intro r
      by_cases h : kv.1 = r
      · rw [dictGet, if_pos h, if_pos h]
        have hnone : dictGet r rest = none := by
          rw [← h]
          exact dictGet_eq_none_iff.mpr hk
        simp [hnone]
      · rw [dictGet, if_neg h, if_neg h]
        simp
    have hsplit : ((List.range n).map
          (fun r => ((dictGet r (kv :: rest)).getD []).length)).sum
        = ((List.range n).map (fun r => ((dictGet r rest).getD []).length)).sum
          + ((List.range n).map (fun r => if kv.1 = r then kv.2.length else 0)).sum := by
      rw [← List.sum_map_add]
      apply congrArg List.sum
      apply List.map_congr_left
      intro r _
      exact hpoint r
    rw [hsplit, ih hnd' hlt', ite_sum_range, if_pos hkn]
    simp only [List.map_cons, List.sum_cons]
    omega

namespace MultiSparse

variable {α : Type}

theorem prefLen_eq_size (m : MultiSparse α) {n : Nat}
    (hnd : (dictKeys m.rows).Nodup) (hlt : ∀ k ∈ dictKeys m.rows, k < n) :
    m.prefLen n = m.size := by
  unfold prefLen size
  rw [← sum_dictGetLen n m.rows hnd hlt]
  apply congrArg List.sum
  apply List.map_congr_left
  intro r _
  rw [rowItems_eq_getD]

end MultiSparse

/-! ### Order of the emitted entries -/

theorem pairwise_of_total {β : Type} {R : β → β → Prop} (hR : ∀ a b, R a b)
    (l : List β) : l.Pairwise R := by
  induction l with
  | nil => exact List.Pairwise.nil
  | cons b bs ih => exact List.Pairwise.cons (fun y _ => hR b y) ih

namespace MultiSparse

variable {α : Type}

/-- The row tags of the emitted entries are non-decreasing: `to_csr` emits
the stored entries grouped by ascending row index. -/
theorem emitted_rows_sorted (m : MultiSparse α) (n : Nat) :
    ((m.emitted n).map (fun e => e.1)).Pairwise (fun a b => a ≤ b) := by
  unfold emitted
  rw [List.map_flatMap]
  have hblocks : ∀ r, ((m.rowItems r).map (fun ci => ((r, ci.1, ci.2) : Nat × Nat × α))).map
      (fun e => e.1) = (m.rowItems r).map (fun _ => r) := by
    intro r
    rw [List.map_map]
    rfl
  rw [List.flatMap_def]
  apply List.pairwise_flatten.mpr
  constructor
  · intro l hl
    obtain ⟨r, hr, rfl⟩ := List.mem_map.mp hl
    rw [hblocks r]
    apply List.pairwise_map.mpr
    exact pairwise_of_total (fun a b => le_refl r) _
  · apply List.pairwise_map.mpr
    apply (List.pairwise_lt_range n).imp
    intro a b hab
    intro x hx y hy
    rw [hblocks a] at hx
    rw [hblocks b] at hy
    obtain ⟨_, _, rfl⟩ := List.mem_map.mp hx
    obtain ⟨_, _, rfl⟩ := List.mem_map.mp hy
    exact le_of_lt hab

end MultiSparse

/-! ### The store-building loop of `singular_impedance_rwg` -/

section Build

variable {Pt α : Type} [Inhabited Pt]

/-- The element `(res[1], res[0])` inserted into the electric-field store
for the pair `pq`. -/
def efieVal (quad : List Pt → List Pt → Pt → α × α × α × α)
    (polygons : List (List Nat)) (nodes normals : List Pt) (pq : Nat × Nat) : α × α :=
  let res := quad ((polygons.getD pq.2 []).map (fun n => nodes.getD n default))
    ((polygons.getD pq.1 []).map (fun n => nodes.getD n default)) (normals.getD pq.1 default)
  (res.2.1, res.1)

/-- The element `res[3]` inserted into the tangential magnetic-field store
for the pair `pq`. -/
def tmfieVal (quad : List Pt → List Pt → Pt → α × α × α × α)
    (polygons : List (List Nat)) (nodes normals : List Pt) (pq : Nat × Nat) : α :=
  let res := quad ((polygons.getD pq.2 []).map (fun n => nodes.getD n default))
    ((polygons.getD pq.1 []).map (fun n => nodes.getD n default)) (normals.getD pq.1 default)
  res.2.2.2

/-- The element `res[2]` inserted into the normal-cross magnetic-field store
for the pair `pq`. -/
def nmfieVal (quad : List Pt → List Pt → Pt → α × α × α × α)
    (polygons : List (List Nat)) (nodes normals : List Pt) (pq : Nat × Nat) : α :=
  let res := quad ((polygons.getD pq.2 []).map (fun n => nodes.getD n default))
    ((polygons.getD pq.1 []).map (fun n => nodes.getD n default)) (normals.getD pq.1 default)
  res.2.2.1

theorem buildStep_T_EFIE (quad : List Pt → List Pt → Pt → α × α × α × α)
    (polygons : List (List Nat)) (nodes normals : List Pt)
    (st : SingularStores α) (pq : Nat × Nat) :
    (buildStep quad polygons nodes normals st pq).T_EFIE
      = st.T_EFIE.setItem pq.1 pq.2 (efieVal quad polygons nodes normals pq) := by
  unfold buildStep efieVal
  by_cases h : pq.2 ≠ pq.1 <;> simp [h]

theorem buildStep_T_MFIE (quad : List Pt → List Pt → Pt → α × α × α × α)
    (polygons : List (List Nat)) (nodes normals : List Pt)
    (st : SingularStores α) (pq : Nat × Nat) :
    (buildStep quad polygons nodes normals st pq).T_MFIE
      = if pq.2 ≠ pq.1
          then st.T_MFIE.setItem pq.1 pq.2 (tmfieVal quad polygons nodes normals pq)
          else st.T_MFIE := by
  unfold buildStep tmfieVal
  by_cases h : pq.2 ≠ pq.1 <;> simp [h]

theorem buildStep_N_MFIE (quad : List Pt → List Pt → Pt → α × α × α × α)
    (polygons : List (List Nat)) (nodes normals : List Pt)
    (st : SingularStores α) (pq : Nat × Nat) :
    (buildStep quad polygons nodes normals st pq).N_MFIE
      = if pq.2 ≠ pq.1
          then st.N_MFIE.setItem pq.1 pq.2 (nmfieVal quad polygons nodes normals pq)
          else st.N_MFIE := by
  unfold buildStep nmfieVal
  by_cases h : pq.2 ≠ pq.1 <;> simp [h]

theorem foldl_buildStep_T_EFIE (quad : List Pt → List Pt → Pt → α × α × α × α)
    (polygons : List (List Nat)) (nodes normals : List Pt) (ks : List (Nat × Nat)) :
    ∀ st : SingularStores α,
      (ks.foldl (buildStep quad polygons nodes normals) st).T_EFIE
        = ks.foldl (fun m pq => m.setItem pq.1 pq.2 (efieVal quad polygons nodes normals pq))
            st.T_EFIE := by
  induction ks with
  | nil =>
    intro st
    rfl
  | cons k ks ih =>
    intro st
    rw [List.foldl_cons, List.foldl_cons, ih, buildStep_T_EFIE]

theorem foldl_buildStep_T_MFIE (quad : List Pt → List Pt → Pt → α × α × α × α)
    (polygons : List (List Nat)) (nodes normals : List Pt) (ks : List (Nat × Nat)) :
    ∀ st : SingularStores α,
      (ks.foldl (buildStep quad polygons nodes normals) st).T_MFIE
        = ks.foldl (fun m pq => if pq.2 ≠ pq.1
              then m.setItem pq.1 pq.2 (tmfieVal quad polygons nodes normals pq)
              else m)
            st.T_MFIE := by
  induction ks with
  | nil =>
    intro st
    rfl
  | cons k ks ih =>
    intro st
    rw [List.foldl_cons, List.foldl_cons, ih, buildStep_T_MFIE]

theorem foldl_buildStep_N_MFIE (quad : List Pt → List Pt → Pt → α × α × α × α)
    (polygons : List (List Nat)) (nodes normals : List Pt) (ks : List (Nat × Nat)) :
    ∀ st : SingularStores α,
      (ks.foldl (buildStep quad polygons nodes normals) st).N_MFIE
        = ks.foldl (fun m pq => if pq.2 ≠ pq.1
              then m.setItem pq.1 pq.2 (nmfieVal quad polygons nodes normals pq)
              else m)
            st.N_MFIE := by
  induction ks with
  | nil =>
    intro st
    rfl
  | cons k ks ih =>
    intro st
    rw [List.foldl_cons, List.foldl_cons, ih, buildStep_N_MFIE]

end Build

/-- Folding a conditional insertion is folding the unconditional insertion
over the filtered list. -/
theorem foldl_ite_filter {β γ : Type} (p : γ → Prop) [DecidablePred p]
    (f : β → γ → β) (ks : List γ) :
    ∀ b : β, ks.foldl (fun m k => if p k then f m k else m) b
      = (ks.filter (fun k => decide (p k))).foldl f b := by
  induction ks with
  | nil =>
    intro b
    rfl
  | cons k ks ih =>
    intro b
    by_cases hp : p k
    · simp [hp, List.foldl_cons, ih]
    · simp [hp, List.foldl_cons, ih]

/-- Lookup after a fold of insertions whose values are determined by their
keys: the key is found iff it was inserted. -/
theorem get_foldl_setItem {β : Type} (v : Nat × Nat → β) (ks : List (Nat × Nat)) :
    ∀ (m : MultiSparse β) (r c : Nat),
      (ks.foldl (fun m k => m.setItem k.1 k.2 (v k)) m).get r c
        = if (r, c) ∈ ks then some (v (r, c)) else m.get r c := by
  induction ks with
  | nil =>
    intro m r c
    simp
  | cons k ks ih =>
    intro m r c
    rw [List.foldl_cons, ih]
    by_cases hmem : (r, c) ∈ ks
    · simp [hmem, List.mem_cons]
    · rw [if_neg hmem]
      by_cases hk : (r, c) = k
      · rw [← hk, MultiSparse.get_setItem_self]
        rw [if_pos (List.mem_cons_self _ _)]
      · have hne : (r, c) ≠ (k.1, k.2) := by
          intro hh
          exact hk (by rw [hh])
        rw [MultiSparse.get_setItem_ne _ hne]
        rw [if_neg (by
          intro hh
          rcases List.mem_cons.mp hh with hh | hh
          · exact hk hh
          · exact hmem hh)]

/-! ### The visited (observer, source) pairs -/

theorem mem_sharingTriangles {polygons : List (List Nat)} {p q : Nat} :
    q ∈ sharingTriangles polygons p
      ↔ q < polygons.length ∧ ∃ node ∈ polygons.getD p [], node ∈ polygons.getD q [] := by
  unfold sharingTriangles trianglesSharingNodes
  rw [List.mem_filter, List.mem_range]
  constructor
  · rintro ⟨hq, hany⟩
    obtain ⟨node, hnode, hq2⟩ := List.any_eq_true.mp hany
    have hq3 := of_decide_eq_true hq2
    rw [List.mem_filter] at hq3
    exact ⟨hq, node, hnode, of_decide_eq_true hq3.2⟩
  · rintro ⟨hq, node, hnode, hmem⟩
    refine ⟨hq, List.any_eq_true.mpr ⟨node, hnode, ?_⟩⟩
    apply decide_eq_true
    rw [List.mem_filter]
    exact ⟨List.mem_range.mpr hq, decide_eq_true hmem⟩

theorem mem_singularPairs {polygons : List (List Nat)} {p q : Nat} :
    (p, q) ∈ singularPairs polygons
      ↔ p < polygons.length ∧ q ∈ sharingTriangles polygons p := by
  unfold singularPairs
  rw [List.mem_flatMap]
  constructor
  · rintro ⟨a, ha, hmem⟩
    obtain ⟨q', hq', heq⟩ := List.mem_map.mp hmem
    have h1 : a = p := (Prod.mk.injEq _ _ _ _).mp heq |>.1
    have h2 : q' = q := (Prod.mk.injEq _ _ _ _).mp heq |>.2
    subst h1
    subst h2
    exact ⟨List.mem_range.mp ha, hq'⟩
  · rintro ⟨hp, hq⟩
    exact ⟨p, List.mem_range.mpr hp, List.mem_map.mpr ⟨q, hq, rfl⟩⟩

theorem singularPairs_nodup (polygons : List (List Nat)) :
    (singularPairs polygons).Nodup := by
  unfold singularPairs
  apply List.nodup_flatMap.mpr
  constructor
  · intro p hp
    refine List.Nodup.map ?_ (List.Nodup.filter _ (List.nodup_range _))
    intro q q' hqq
    exact ((Prod.mk.injEq _ _ _ _).mp hqq).2
  · apply (List.pairwise_lt_range _).imp
    intro a b hab
    intro x hxa hxb
    obtain ⟨q, hq, rfl⟩ := List.mem_map.mp hxa
    obtain ⟨q', hq', heq⟩ := List.mem_map.mp hxb
    have : b = a := ((Prod.mk.injEq _ _ _ _).mp heq).1
    omega

/-! ### The process-wide cache -/

theorem cacheLookup_append {α : Type} (key : CacheKey) (c1 c2 : Cache α) :
    cacheLookup key (c1 ++ c2) = (cacheLookup key c1).or (cacheLookup key c2) := by
  induction c1 with
  | nil => simp [cacheLookup]
  | cons kv rest ih =>
    simp only [List.cons_append, cacheLookup]
    by_cases h : kv.1 = key
    · simp [h]
    · simp [h, ih]

theorem cacheLookup_mem {α : Type} {key : CacheKey} {c : Cache α} {r : SingularCsr α}
    (h : cacheLookup key c = some r) : (key, r) ∈ c := by
  induction c with
  | nil => exact Option.noConfusion h
  | cons kv rest ih =>
    unfold cacheLookup at h
    by_cases hk : kv.1 = key
    · rw [if_pos hk] at h
      have : kv = (key, r) := by
        rcases kv with ⟨k1, v1⟩
        simp only at hk
        simp only [Option.some.injEq] at h
        rw [hk, h]
      rw [this] at *
      exact List.mem_cons_self _ _
    · rw [if_neg hk] at h
      exact List.mem_cons_of_mem _ (ih h)

theorem cacheLookup_singleton_ne {α : Type} {key' key : CacheKey} (h : key' ≠ key)
    (r : SingularCsr α) : cacheLookup key' [(key, r)] = none := by
  have hne : ¬(key = key') := fun hh => h hh.symm
  simp [cacheLookup, hne]

/-- Lookup after a fold of conditional insertions whose values are
determined by their keys. -/
theorem get_foldl_ite_setItem {β : Type} (P : Nat × Nat → Prop) [DecidablePred P]
    (v : Nat × Nat → β) (ks : List (Nat × Nat)) :
    ∀ (m : MultiSparse β) (r c : Nat),
      (ks.foldl (fun m k => if P k then m.setItem k.1 k.2 (v k) else m) m).get r c
        = if (r, c) ∈ ks ∧ P (r, c) then some (v (r, c)) else m.get r c := by
  induction ks with
  | nil =>
    intro m r c
    simp
  | cons k ks ih =>
    intro m r c
    rw [List.foldl_cons, ih]
    by_cases hmem : (r, c) ∈ ks ∧ P (r, c)
    · rw [if_pos hmem, if_pos ⟨List.mem_cons_of_mem _ hmem.1, hmem.2⟩]
    · rw [if_neg hmem]
      by_cases hk : (r, c) = k
      · by_cases hP : P k
        · rw [← hk, if_pos (by rw [hk]; exact hP), MultiSparse.get_setItem_self,
            if_pos ⟨List.mem_cons_self _ _, by rw [hk]; exact hP⟩]
        · rw [if_neg hP]
          rw [if_neg (by
            rintro ⟨_, hPrc⟩
            exact hP (by rw [← hk]; exact hPrc))]
      · have hne : (r, c) ≠ (k.1, k.2) := by
          intro hh
          exact hk (by rw [hh])
        by_cases hP : P k
        · rw [if_pos hP, MultiSparse.get_setItem_ne _ hne]
          rw [if_neg (by
            rintro ⟨hin, hPrc⟩
            rcases List.mem_cons.mp hin with hin | hin
            · exact hk hin
            · exact hmem ⟨hin, hPrc⟩)]
        · rw [if_neg hP]
          rw [if_neg (by
            rintro ⟨hin, hPrc⟩
            rcases List.mem_cons.mp hin with hin | hin
            · exact hk hin
            · exact hmem ⟨hin, hPrc⟩)]

/-! ### Lookup in the built stores -/

section BuildGet

variable {Pt α : Type} [Inhabited Pt]

theorem build_T_EFIE_get (quad : List Pt → List Pt → Pt → α × α × α × α)
    (polygons : List (List Nat)) (nodes normals : List Pt) (nt : Nat) (r c : Nat) :
    (buildSingularTerms quad polygons nodes normals nt).T_EFIE.get r c
      = if (r, c) ∈ singularPairs polygons
          then some (efieVal quad polygons nodes normals (r, c))
          else none := by
  unfold buildSingularTerms
  rw [foldl_buildStep_T_EFIE, get_foldl_setItem]
  rfl

theorem build_T_MFIE_get (quad : List Pt → List Pt → Pt → α × α × α × α)
    (polygons : List (List Nat)) (nodes normals : List Pt) (nt : Nat) (r c : Nat) :
    (buildSingularTerms quad polygons nodes normals nt).T_MFIE.get r c
      = if (r, c) ∈ singularPairs polygons ∧ c ≠ r
          then some (tmfieVal quad polygons nodes normals (r, c))
          else none := by
  unfold buildSingularTerms
  rw [foldl_buildStep_T_MFIE, get_foldl_ite_setItem (fun pq => pq.2 ≠ pq.1)]
  rfl

theorem build_N_MFIE_get (quad : List Pt → List Pt → Pt → α × α × α × α)
    (polygons : List (List Nat)) (nodes normals : List Pt) (nt : Nat) (r c : Nat) :
    (buildSingularTerms quad polygons nodes normals nt).N_MFIE.get r c
      = if (r, c) ∈ singularPairs polygons ∧ c ≠ r
          then some (nmfieVal quad polygons nodes normals (r, c))
          else none := by
  unfold buildSingularTerms
  rw [foldl_buildStep_N_MFIE, get_foldl_ite_setItem (fun pq => pq.2 ≠ pq.1)]
  rfl

end BuildGet

/-! ### Claim theorems -/

/-- C3: for every MultiSparse store (built by any insertion sequence) and
every (observer, source) pair, the compressed-row conversion round-trips:
the (row, col) → value mapping reconstructed from the data, shared index
and shared row-pointer arrays returned by `to_csr` equals the mapping held
by the store before conversion. -/
theorem C3_csr_roundtrip {α : Type} (subs : List (Option (List Nat)))
    (l : List ((Nat × Nat) × α)) (ord : ArrOrder) (out : CsrOut α)
    (h : (ofList subs l).to_csr ord = some out) (r c : Nat) :
    csrGet out r c = (ofList subs l).get r c :=
  MultiSparse.csrGet_eq_get _ ord out h r c

/-- Witness fixtures for the store-level claims: a small insertion sequence
(with one overwritten key) and its converted output. -/
def wList : List ((Nat × Nat) × Nat) :=
  [((3, 1), 10), ((0, 2), 20), ((3, 5), 30), ((0, 2), 40)]

def wStore : MultiSparse Nat :=
  ofList [] wList

def wOut : CsrOut Nat :=
  (wStore.to_csr ArrOrder.C).getD default

theorem C3_csr_roundtrip_witness :
    csrGet wOut 0 2 = (ofList [] wList).get 0 2 ∧ (ofList [] wList).get 0 2 = some 40 :=
  ⟨C3_csr_roundtrip [] wList ArrOrder.C wOut (by rfl) 0 2, by rfl⟩

/-- C4: for every non-empty store, `to_csr` emits the stored entries grouped
by ascending row index, all sub-result data share the single index array
(equal lengths at common positions), and the single row-pointer array is
monotonically non-decreasing, starting at 0 and ending at the total number
of stored items. -/
theorem C4_csr_row_structure {α : Type} (subs : List (Option (List Nat)))
    (l : List ((Nat × Nat) × α)) (ord : ArrOrder) (out : CsrOut α)
    (h : (ofList subs l).to_csr ord = some out) :
    ((csrEntries out).map (fun e => e.1)).Pairwise (fun a b => a ≤ b) ∧
    out.data.length = out.indices.length ∧
    out.indptr.Pairwise (fun a b => a ≤ b) ∧
    out.indptr.head? = some 0 ∧
    out.indptr.getLast? = some (ofList subs l).size := by
  set m := ofList subs l with hm
  cases hmx : pyMax (dictKeys m.rows) with
  | none =>
    exfalso
    unfold MultiSparse.to_csr at h
    rw [hmx] at h
    exact Option.noConfusion h
  | some mx =>
    have hent := MultiSparse.csrEntries_eq_emitted m ord hmx out h
    rw [MultiSparse.to_csr_eq m ord hmx] at h
    have hout := Option.some.inj h
    subst hout
    refine ⟨?_, ?_, ?_, ?_, ?_⟩
    · rw [hent]
      exact m.emitted_rows_sorted (mx + 1)
    · simp
    · show (0 :: (List.range (mx + 1)).map (fun r => m.prefLen (r + 1))).Pairwise
        (fun a b => a ≤ b)
      rw [MultiSparse.indptr_eq]
      apply List.pairwise_map.mpr
      apply (List.pairwise_lt_range _).imp
      intro a b hab
      exact m.prefLen_mono (le_of_lt hab)
    · rfl
    · show (0 :: (List.range (mx + 1)).map (fun r => m.prefLen (r + 1))).getLast?
        = some m.size
      rw [MultiSparse.indptr_eq, List.range_succ, List.map_append]
      simp only [List.map_cons, List.map_nil]
      rw [List.getLast?_concat]
      apply congrArg some
      apply m.prefLen_eq_size (hm ▸ ofList_rowsKeys_nodup subs l)
      intro k hk
      have := le_of_mem_pyMax hmx hk
      omega

theorem C4_csr_row_structure_witness :
    ((csrEntries wOut).map (fun e => e.1)).Pairwise (fun a b => a ≤ b) ∧
    wOut.data.length = wOut.indices.length ∧
    wOut.indptr.Pairwise (fun a b => a ≤ b) ∧
    wOut.indptr.head? = some 0 ∧
    wOut.indptr.getLast? = some (ofList [] wList).size :=
  C4_csr_row_structure [] wList ArrOrder.C wOut (by rfl)

/-- C10: `to_csr` succeeds exactly on non-empty stores — on a store with no
inserted entries it raises (the `max` of an empty key sequence), and on any
store with at least one entry it returns an index array whose length equals
the total number of stored items. -/
theorem C10_to_csr_empty_iff {α : Type} (subs : List (Option (List Nat)))
    (l : List ((Nat × Nat) × α)) (ord : ArrOrder) :
    ((ofList subs l).to_csr ord = none ↔ l = []) ∧
    (∀ out : CsrOut α, (ofList subs l).to_csr ord = some out →
      out.indices.length = (ofList subs l).size) := by
  constructor
  · cases hmx : pyMax (dictKeys (ofList subs l).rows) with
    | none =>
      have hnil : l = [] := by
        have := pyMax_eq_none_iff.mp hmx
        have hrows : (ofList subs l).rows = [] := by
          unfold dictKeys at this
          exact List.map_eq_nil_iff.mp this
        exact (ofList_rows_eq_nil_iff subs l).mp hrows
      unfold MultiSparse.to_csr
      rw [hmx]
      simp [hnil]
    | some mx =>
      rw [MultiSparse.to_csr_eq _ ord hmx]
      constructor
      · intro hc
        exact Option.noConfusion hc
      · intro hc
        exfalso
        rw [hc] at hmx
        have : dictKeys (ofList subs ([] : List ((Nat × Nat) × α))).rows = [] := by
          simp [ofList, dictKeys]
        rw [this] at hmx
        exact Option.noConfusion hmx
  · intro out h
    cases hmx : pyMax (dictKeys (ofList subs l).rows) with
    | none =>
      exfalso
      unfold MultiSparse.to_csr at h
      rw [hmx] at h
      exact Option.noConfusion h
    | some mx =>
      rw [MultiSparse.to_csr_eq _ ord hmx] at h
      have hout := Option.some.inj h
      subst hout
      show (((ofList subs l).emitted (mx + 1)).map (fun e => e.2.1)).length
        = (ofList subs l).size
      rw [List.length_map, MultiSparse.emitted_length]
      apply MultiSparse.prefLen_eq_size _ (ofList_rowsKeys_nodup subs l)
      intro k hk
      have := le_of_mem_pyMax hmx hk
      omega

theorem C10_to_csr_empty_iff_witness :
    wOut.indices.length = (ofList [] wList).size ∧
    ¬((ofList [] wList).to_csr ArrOrder.C = none) :=
  ⟨(C10_to_csr_empty_iff [] wList ArrOrder.C).2 wOut (by rfl),
    fun h => by simpa [wList] using (C10_to_csr_empty_iff [] wList ArrOrder.C).1.mp h⟩

/-- C2: in the stores built by the loop of `singular_impedance_rwg`, the two
magnetic-field-operator stores hold no entry for any self pair `(p, p)`,
while the electric-field store holds an entry for every node-sharing
(observer, source) pair — including the self pair, since a triangle shares
its own nodes. -/
theorem C2_self_pair_exclusion {Pt α : Type} [Inhabited Pt]
    (quad : List Pt → List Pt → Pt → α × α × α × α)
    (polygons : List (List Nat)) (nodes normals : List Pt) (nt : Nat)
    (p q : Nat) (hp : p < polygons.length) (hq : q < polygons.length)
    (hshare : ∃ node ∈ polygons.getD p [], node ∈ polygons.getD q []) :
    (∀ p' : Nat,
      (buildSingularTerms quad polygons nodes normals nt).T_MFIE.get p' p' = none ∧
      (buildSingularTerms quad polygons nodes normals nt).N_MFIE.get p' p' = none) ∧
    ((buildSingularTerms quad polygons nodes normals nt).T_EFIE.get p q).isSome = true := by
  constructor
  · intro p'
    constructor
    · rw [build_T_MFIE_get]
      rw [if_neg]
      rintro ⟨_, hne⟩
      exact hne rfl
    · rw [build_N_MFIE_get]
      rw [if_neg]
      rintro ⟨_, hne⟩
      exact hne rfl
  · rw [build_T_EFIE_get, if_pos]
    · rfl
    · exact mem_singularPairs.mpr ⟨hp, mem_sharingTriangles.mpr ⟨hq, hshare⟩⟩

/-- Witness fixtures for the loop-level and cache-level claims: a two
triangle mesh sharing an edge, a concrete quadrature stub and basis. -/
def wQuadN : List Nat → List Nat → Nat → Nat × Nat × Nat × Nat :=
  fun a b n => (a.sum, b.sum, n, a.length + b.length)

def wPolys : List (List Nat) :=
  [[0, 1, 2], [1, 2, 3]]

theorem C2_self_pair_exclusion_witness :
    (∀ p' : Nat,
      (buildSingularTerms wQuadN wPolys [10, 20, 30, 40] [7, 8] 2).T_MFIE.get p' p' = none ∧
      (buildSingularTerms wQuadN wPolys [10, 20, 30, 40] [7, 8] 2).N_MFIE.get p' p' = none) ∧
    ((buildSingularTerms wQuadN wPolys [10, 20, 30, 40] [7, 8] 2).T_EFIE.get 1 0).isSome
      = true :=
  C2_self_pair_exclusion wQuadN wPolys [10, 20, 30, 40] [7, 8] 2 1 0 (by decide) (by decide)
    ⟨1, by decide, by decide⟩

/-- C7: the Singular Term Store is write-once per key in the build of
`singular_impedance_rwg` — the visited (observer, source) key sequence is
duplicate-free (so each key of each store is inserted exactly once,
the magnetic-field stores receiving the non-self subsequence), and an
insertion at one key never replaces the value held at any other key. -/
theorem C7_write_once {α : Type} (polygons : List (List Nat)) :
    (singularPairs polygons).Nodup ∧
    ((singularPairs polygons).filter (fun pq => decide (pq.2 ≠ pq.1))).Nodup ∧
    (∀ (m : MultiSparse α) (r c : Nat) (it : α) (r' c' : Nat), (r', c') ≠ (r, c) →
      (m.setItem r c it).get r' c' = m.get r' c') := by
  refine ⟨singularPairs_nodup polygons,
    List.Nodup.filter _ (singularPairs_nodup polygons), ?_⟩
  intro m r c it r' c' h
  exact m.get_setItem_ne h it

def m0 : MultiSparse Nat :=
  ⟨[], []⟩

theorem C7_write_once_witness :
    (singularPairs wPolys).Nodup ∧
    ((singularPairs wPolys).filter (fun pq => decide (pq.2 ≠ pq.1))).Nodup ∧
    (m0.setItem 0 1 5).get 2 2 = m0.get 2 2 :=
  ⟨(@C7_write_once Nat wPolys).1, (@C7_write_once Nat wPolys).2.1,
    (@C7_write_once Nat wPolys).2.2 m0 0 1 5 2 2 (by decide)⟩

/-! ### Evaluation of `singular_impedance_rwg` by branch -/

section SirEval

variable {Pt α : Type} [Inhabited Pt]
variable (sha1hex : List Pt → String) (quad : List Pt → List Pt → Pt → α × α × α × α)
variable (cache : Cache α) (basis : Basis Pt) (nt : Nat) (tol : ℚ) (nrm : List Pt)

theorem sir_eval_bad (hbt : basis.isLinearTriangle = false) :
    singular_impedance_rwg sha1hex quad cache basis nt tol nrm
      = (Except.error SingError.unsupportedBasis, cache) := by
  unfold singular_impedance_rwg
  rw [if_pos hbt]

theorem sir_eval_hit (hbt : basis.isLinearTriangle = true) {r : SingularCsr α}
    (hl : cacheLookup ("RWG", basis.id, tol, sha1hex nrm, nt) cache = some r) :
    singular_impedance_rwg sha1hex quad cache basis nt tol nrm = (Except.ok r, cache) := by
  unfold singular_impedance_rwg
  rw [if_neg (by simp [hbt])]
  simp only [hl]

theorem sir_eval_miss (hbt : basis.isLinearTriangle = true)
    (hl : cacheLookup ("RWG", basis.id, tol, sha1hex nrm, nt) cache = none)
    {a : CsrOut (α × α)} {b c : CsrOut α}
    (hE : (buildSingularTerms quad basis.polygons basis.nodes nrm nt).T_EFIE.to_csr
        ArrOrder.F = some a)
    (hT : (buildSingularTerms quad basis.polygons basis.nodes nrm nt).T_MFIE.to_csr
        ArrOrder.F = some b)
    (hN : (buildSingularTerms quad basis.polygons basis.nodes nrm nt).N_MFIE.to_csr
        ArrOrder.F = some c) :
    singular_impedance_rwg sha1hex quad cache basis nt tol nrm
      = (Except.ok ⟨a, b, c⟩,
          cache ++ [(("RWG", basis.id, tol, sha1hex nrm, nt), ⟨a, b, c⟩)]) := by
  unfold singular_impedance_rwg
  rw [if_neg (by simp [hbt])]
  simp only [hl, hE, hT, hN]

theorem sir_eval_miss_err (hbt : basis.isLinearTriangle = true)
    (hl : cacheLookup ("RWG", basis.id, tol, sha1hex nrm, nt) cache = none)
    (h : (buildSingularTerms quad basis.polygons basis.nodes nrm nt).T_EFIE.to_csr
          ArrOrder.F = none ∨
        (buildSingularTerms quad basis.polygons basis.nodes nrm nt).T_MFIE.to_csr
          ArrOrder.F = none ∨
        (buildSingularTerms quad basis.polygons basis.nodes nrm nt).N_MFIE.to_csr
          ArrOrder.F = none) :
    singular_impedance_rwg sha1hex quad cache basis nt tol nrm
      = (Except.error SingError.emptyMaxArg, cache) := by
  unfold singular_impedance_rwg
  rw [if_neg (by simp [hbt])]
  rcases h with h | h | h
  · simp only [hl, h]
  · simp only [hl, h]
    cases (buildSingularTerms quad basis.polygons basis.nodes nrm nt).T_EFIE.to_csr
        ArrOrder.F <;> rfl
  · simp only [hl, h]
    cases (buildSingularTerms quad basis.polygons basis.nodes nrm nt).T_EFIE.to_csr
        ArrOrder.F with
    | none => rfl
    | some a =>
      cases (buildSingularTerms quad basis.polygons basis.nodes nrm nt).T_MFIE.to_csr
          ArrOrder.F <;> rfl

end SirEval

/-- C5: `singular_impedance_rwg` fails with the unsupported-basis error
exactly when the supplied basis is not of the linear-triangle (RWG) kind,
and in that case it fails immediately: the result does not depend on the
quadrature kernel and the cache is returned unmodified, whatever its
contents. -/
theorem C5_unsupported_basis {Pt α : Type} [Inhabited Pt]
    (sha1hex : List Pt → String) (quad : List Pt → List Pt → Pt → α × α × α × α)
    (cache : Cache α) (basis : Basis Pt) (nt : Nat) (tol : ℚ) (nrm : List Pt) :
    ((singular_impedance_rwg sha1hex quad cache basis nt tol nrm).1
        = Except.error SingError.unsupportedBasis
      ↔ basis.isLinearTriangle = false) ∧
    (basis.isLinearTriangle = false →
      ∀ (quad' : List Pt → List Pt → Pt → α × α × α × α) (cache' : Cache α),
        singular_impedance_rwg sha1hex quad' cache' basis nt tol nrm
          = (Except.error SingError.unsupportedBasis, cache')) := by
  cases hbt : basis.isLinearTriangle with
  | false =>
    constructor
    · rw [sir_eval_bad sha1hex quad cache basis nt tol nrm hbt]
      simp
    · intro _ quad' cache'
      exact sir_eval_bad sha1hex quad' cache' basis nt tol nrm hbt
  | true =>
    constructor
    · constructor
      · intro herr
        exfalso
        cases hl : cacheLookup ("RWG", basis.id, tol, sha1hex nrm, nt) cache with
        | some r =>
          rw [sir_eval_hit sha1hex quad cache basis nt tol nrm hbt hl] at herr
          exact Except.noConfusion herr
        | none =>
          cases hE : (buildSingularTerms quad basis.polygons basis.nodes nrm
              nt).T_EFIE.to_csr ArrOrder.F with
          | none =>
            rw [sir_eval_miss_err sha1hex quad cache basis nt tol nrm hbt hl
              (Or.inl hE)] at herr
            simp at herr
          | some a =>
            cases hT : (buildSingularTerms quad basis.polygons basis.nodes nrm
                nt).T_MFIE.to_csr ArrOrder.F with
            | none =>
              rw [sir_eval_miss_err sha1hex quad cache basis nt tol nrm hbt hl
                (Or.inr (Or.inl hT))] at herr
              simp at herr
            | some b =>
              cases hN : (buildSingularTerms quad basis.polygons basis.nodes nrm
                  nt).N_MFIE.to_csr ArrOrder.F with
              | none =>
                rw [sir_eval_miss_err sha1hex quad cache basis nt tol nrm hbt hl
                  (Or.inr (Or.inr hN))] at herr
                simp at herr
              | some c =>
                rw [sir_eval_miss sha1hex quad cache basis nt tol nrm hbt hl hE hT
                  hN] at herr
                exact Except.noConfusion herr
      · intro hfalse
        exact Bool.noConfusion hfalse
    · intro hfalse
      exact Bool.noConfusion hfalse

/-- Further witness fixtures: a concrete supported and unsupported basis,
hash stub, and the outcome of a first call on the empty cache. -/
def wSha : List Nat → String :=
  fun _ => "h"

def wNormals : List Nat :=
  [7, 8]

def wBasis : Basis Nat :=
  ⟨true, 0, wPolys, [10, 20, 30, 40]⟩

def wBadBasis : Basis Nat :=
  ⟨false, 0, wPolys, [10, 20, 30, 40]⟩

theorem C5_unsupported_basis_witness :
    ((singular_impedance_rwg wSha wQuadN [] wBadBasis 2 (1/2) wNormals).1
        = Except.error SingError.unsupportedBasis
      ↔ wBadBasis.isLinearTriangle = false) ∧
    (wBadBasis.isLinearTriangle = false →
      ∀ (quad' : List Nat → List Nat → Nat → Nat × Nat × Nat × Nat) (cache' : Cache Nat),
        singular_impedance_rwg wSha quad' cache' wBadBasis 2 (1/2) wNormals
          = (Except.error SingError.unsupportedBasis, cache')) :=
  C5_unsupported_basis wSha wQuadN [] wBadBasis 2 (1/2) wNormals

/-- The cache key written by `singular_impedance_rwg` differs between any
two requests whose (tolerance, term count) pairs differ. -/
theorem key_ne_of_pair_ne {bid : Nat} {hash : String} {tol tol' : ℚ} {nt nt' : Nat}
    (h : (tol', nt') ≠ (tol, nt)) :
    (("RWG", bid, tol', hash, nt') : CacheKey) ≠ ("RWG", bid, tol, hash, nt) := by
  intro hh
  apply h
  have h1 := congrArg (fun k : CacheKey => k.2.2.1) hh
  have h2 := congrArg (fun k : CacheKey => k.2.2.2.2) hh
  simp only at h1 h2
  rw [h1, h2]

/-- C1: a second call with identical key material returns the very same
finalized result object with the cache unchanged — independently of the
quadrature kernel, i.e. without recomputation — and the entry cached for one
(tolerance, term count) pair leaves the cache contents for every different
(tolerance, term count) pair untouched, so it never satisfies such a
request. -/
theorem C1_cache_determinism {Pt α : Type} [Inhabited Pt]
    (sha1hex : List Pt → String) (quad : List Pt → List Pt → Pt → α × α × α × α)
    (c0 : Cache α) (basis : Basis Pt) (nt : Nat) (tol : ℚ) (nrm : List Pt)
    (r : SingularCsr α) (c1 : Cache α)
    (h : singular_impedance_rwg sha1hex quad c0 basis nt tol nrm = (Except.ok r, c1)) :
    (∀ quad' : List Pt → List Pt → Pt → α × α × α × α,
      singular_impedance_rwg sha1hex quad' c1 basis nt tol nrm = (Except.ok r, c1)) ∧
    (∀ (tol' : ℚ) (nt' : Nat), (tol', nt') ≠ (tol, nt) →
      cacheLookup ("RWG", basis.id, tol', sha1hex nrm, nt') c1
        = cacheLookup ("RWG", basis.id, tol', sha1hex nrm, nt') c0) := by
  cases hbt : basis.isLinearTriangle with
  | false =>
    rw [sir_eval_bad sha1hex quad c0 basis nt tol nrm hbt] at h
    exact absurd (congrArg Prod.fst h) (by simp)
  | true =>
    cases hl : cacheLookup ("RWG", basis.id, tol, sha1hex nrm, nt) c0 with
    | some r0 =>
      rw [sir_eval_hit sha1hex quad c0 basis nt tol nrm hbt hl] at h
      have hr : r0 = r := Except.ok.inj (congrArg Prod.fst h)
      have hc : c0 = c1 := congrArg Prod.snd h
      subst hr
      subst hc
      constructor
      · intro quad'
        exact sir_eval_hit sha1hex quad' c0 basis nt tol nrm hbt hl
      · intro tol' nt' _
        rfl
    | none =>
      cases hE : (buildSingularTerms quad basis.polygons basis.nodes nrm
          nt).T_EFIE.to_csr ArrOrder.F with
      | none =>
        rw [sir_eval_miss_err sha1hex quad c0 basis nt tol nrm hbt hl (Or.inl hE)] at h
        exact absurd (congrArg Prod.fst h) (by simp)
      | some a =>
        cases hT : (buildSingularTerms quad basis.polygons basis.nodes nrm
            nt).T_MFIE.to_csr ArrOrder.F with
        | none =>
          rw [sir_eval_miss_err sha1hex quad c0 basis nt tol nrm hbt hl
            (Or.inr (Or.inl hT))] at h
          exact absurd (congrArg Prod.fst h) (by simp)
        | some b =>
          cases hN : (buildSingularTerms quad basis.polygons basis.nodes nrm
              nt).N_MFIE.to_csr ArrOrder.F with
          | none =>
            rw [sir_eval_miss_err sha1hex quad c0 basis nt tol nrm hbt hl
              (Or.inr (Or.inr hN))] at h
            exact absurd (congrArg Prod.fst h) (by simp)
          | some c =>
            rw [sir_eval_miss sha1hex quad c0 basis nt tol nrm hbt hl hE hT hN] at h
            have hr : (⟨a, b, c⟩ : SingularCsr α) = r :=
              Except.ok.inj (congrArg Prod.fst h)
            have hc : c0 ++ [(("RWG", basis.id, tol, sha1hex nrm, nt), ⟨a, b, c⟩)]
                = c1 := congrArg Prod.snd h
            rw [hr] at hc
            constructor
            · intro quad'
              have hl1 : cacheLookup ("RWG", basis.id, tol, sha1hex nrm, nt) c1
                  = some r := by
                rw [← hc, cacheLookup_append, hl, Option.none_or]
                simp [cacheLookup]
              exact sir_eval_hit sha1hex quad' c1 basis nt tol nrm hbt hl1
            · intro tol' nt' hne
              rw [← hc, cacheLookup_append,
                cacheLookup_singleton_ne (key_ne_of_pair_ne hne), Option.or_none]

def wCall : Except SingError (SingularCsr Nat) × Cache Nat :=
  singular_impedance_rwg wSha wQuadN [] wBasis 2 (1/2) wNormals

def wRes : SingularCsr Nat :=
  match wCall.1 with
  | Except.ok r => r
  | Except.error _ => default

def wCache : Cache Nat :=
  wCall.2

theorem C1_cache_determinism_witness :
    (∀ quad' : List Nat → List Nat → Nat → Nat × Nat × Nat × Nat,
      singular_impedance_rwg wSha quad' wCache wBasis 2 (1/2) wNormals
        = (Except.ok wRes, wCache)) ∧
    (∀ (tol' : ℚ) (nt' : Nat), (tol', nt') ≠ (1/2, 2) →
      cacheLookup ("RWG", wBasis.id, tol', wSha wNormals, nt') wCache
        = cacheLookup ("RWG", wBasis.id, tol', wSha wNormals, nt') []) :=
  C1_cache_determinism wSha wQuadN [] wBasis 2 (1/2) wNormals wRes wCache (by rfl)

/-! ### Shapes and memory order of the finalized result -/

/-- The shape contract of a finalized result for term count `nt`: the
electric-field entry carries a scalar-potential sub-array of element shape
`(nt,)` and a vector-potential sub-array of element shape `(nt, 3, 3)`, the
two magnetic-field entries carry one `(nt, 3, 3)` sub-array each, and all
dense arrays were created in column-major (Fortran) order. -/
def csrShapesOK {α : Type} (r : SingularCsr α) (nt : Nat) : Prop :=
  r.T_EFIE.subarrays = [some [nt], some [nt, 3, 3]] ∧
  r.T_MFIE.subarrays = [some [nt, 3, 3]] ∧
  r.N_MFIE.subarrays = [some [nt, 3, 3]] ∧
  r.T_EFIE.order = ArrOrder.F ∧ r.T_MFIE.order = ArrOrder.F ∧ r.N_MFIE.order = ArrOrder.F

/-- Cache invariant: every cached entry satisfies the shape contract of the
term count recorded in its own key. -/
def cacheWF {α : Type} (c : Cache α) : Prop :=
  ∀ e ∈ c, csrShapesOK e.2 e.1.2.2.2.2

theorem to_csr_subarrays_order {α : Type} (m : MultiSparse α) (ord : ArrOrder)
    (out : CsrOut α) (h : m.to_csr ord = some out) :
    out.subarrays = m.subarrays ∧ out.order = ord := by
  cases hmx : pyMax (dictKeys m.rows) with
  | none =>
    exfalso
    unfold MultiSparse.to_csr at h
    rw [hmx] at h
    exact Option.noConfusion h
  | some mx =>
    rw [MultiSparse.to_csr_eq m ord hmx] at h
    have := Option.some.inj h
    subst this
    exact ⟨rfl, rfl⟩

section BuildSubarrays

variable {Pt α : Type} [Inhabited Pt]

theorem foldl_buildStep_subarrays (quad : List Pt → List Pt → Pt → α × α × α × α)
    (polygons : List (List Nat)) (nodes normals : List Pt) (ks : List (Nat × Nat)) :
    ∀ st : SingularStores α,
      (ks.foldl (buildStep quad polygons nodes normals) st).T_EFIE.subarrays
          = st.T_EFIE.subarrays ∧
      (ks.foldl (buildStep quad polygons nodes normals) st).T_MFIE.subarrays
          = st.T_MFIE.subarrays ∧
      (ks.foldl (buildStep quad polygons nodes normals) st).N_MFIE.subarrays
          = st.N_MFIE.subarrays := by
  induction ks with
  | nil =>
    intro st
    exact ⟨rfl, rfl, rfl⟩
  | cons k ks ih =>
    intro st
    rw [List.foldl_cons]
    refine ⟨?_, ?_, ?_⟩
    · rw [(ih _).1, buildStep_T_EFIE, MultiSparse.subarrays_setItem]
    · rw [(ih _).2.1, buildStep_T_MFIE]
      by_cases h : k.2 ≠ k.1
      · rw [if_pos h, MultiSparse.subarrays_setItem]
      · rw [if_neg h]
    · rw [(ih _).2.2, buildStep_N_MFIE]
      by_cases h : k.2 ≠ k.1
      · rw [if_pos h, MultiSparse.subarrays_setItem]
      · rw [if_neg h]

theorem build_subarrays (quad : List Pt → List Pt → Pt → α × α × α × α)
    (polygons : List (List Nat)) (nodes normals : List Pt) (nt : Nat) :
    (buildSingularTerms quad polygons nodes normals nt).T_EFIE.subarrays
        = [some [nt], some [nt, 3, 3]] ∧
    (buildSingularTerms quad polygons nodes normals nt).T_MFIE.subarrays
        = [some [nt, 3, 3]] ∧
    (buildSingularTerms quad polygons nodes normals nt).N_MFIE.subarrays
        = [some [nt, 3, 3]] := by
  unfold buildSingularTerms
  exact foldl_buildStep_subarrays quad polygons nodes normals (singularPairs polygons)
    (initStores α nt)

end BuildSubarrays

/-- C6: every successful call with term count `nt` yields a mapping with
exactly the three operator labels — the electric-field entry holding a
scalar-potential `(nt,)` sub-array and a vector-potential `(nt, 3, 3)`
sub-array, the two magnetic-field entries one `(nt, 3, 3)` sub-array each —
all finalized into compressed sparse structures whose dense arrays are
created in column-major (Fortran) order; the cache invariant recording this
is preserved. -/
theorem C6_result_shape {Pt α : Type} [Inhabited Pt]
    (sha1hex : List Pt → String) (quad : List Pt → List Pt → Pt → α × α × α × α)
    (c0 : Cache α) (basis : Basis Pt) (nt : Nat) (tol : ℚ) (nrm : List Pt)
    (r : SingularCsr α) (c1 : Cache α) (hwf : cacheWF c0)
    (h : singular_impedance_rwg sha1hex quad c0 basis nt tol nrm = (Except.ok r, c1)) :
    csrShapesOK r nt ∧ cacheWF c1 := by
  cases hbt : basis.isLinearTriangle with
  | false =>
    rw [sir_eval_bad sha1hex quad c0 basis nt tol nrm hbt] at h
    exact absurd (congrArg Prod.fst h) (by simp)
  | true =>
    cases hl : cacheLookup ("RWG", basis.id, tol, sha1hex nrm, nt) c0 with
    | some r0 =>
      rw [sir_eval_hit sha1hex quad c0 basis nt tol nrm hbt hl] at h
      have hr : r0 = r := Except.ok.inj (congrArg Prod.fst h)
      have hc : c0 = c1 := congrArg Prod.snd h
      subst hr
      subst hc
      exact ⟨hwf _ (cacheLookup_mem hl), hwf⟩
    | none =>
      cases hE : (buildSingularTerms quad basis.polygons basis.nodes nrm
          nt).T_EFIE.to_csr ArrOrder.F with
      | none =>
        rw [sir_eval_miss_err sha1hex quad c0 basis nt tol nrm hbt hl (Or.inl hE)] at h
        exact absurd (congrArg Prod.fst h) (by simp)
      | some a =>
        cases hT : (buildSingularTerms quad basis.polygons basis.nodes nrm
            nt).T_MFIE.to_csr ArrOrder.F with
        | none =>
          rw [sir_eval_miss_err sha1hex quad c0 basis nt tol nrm hbt hl
            (Or.inr (Or.inl hT))] at h
          exact absurd (congrArg Prod.fst h) (by simp)
        | some b =>
          cases hN : (buildSingularTerms quad basis.polygons basis.nodes nrm
              nt).N_MFIE.to_csr ArrOrder.F with
          | none =>
            rw [sir_eval_miss_err sha1hex quad c0 basis nt tol nrm hbt hl
              (Or.inr (Or.inr hN))] at h
            exact absurd (congrArg Prod.fst h) (by simp)
          | some c =>
            rw [sir_eval_miss sha1hex quad c0 basis nt tol nrm hbt hl hE hT hN] at h
            have hr : (⟨a, b, c⟩ : SingularCsr α) = r :=
              Except.ok.inj (congrArg Prod.fst h)
            have hc : c0 ++ [(("RWG", basis.id, tol, sha1hex nrm, nt), ⟨a, b, c⟩)]
                = c1 := congrArg Prod.snd h
            have hshape : csrShapesOK (⟨a, b, c⟩ : SingularCsr α) nt := by
              have hbs := build_subarrays quad basis.polygons basis.nodes nrm nt
              have hEa := to_csr_subarrays_order _ _ _ hE
              have hTb := to_csr_subarrays_order _ _ _ hT
              have hNc := to_csr_subarrays_order _ _ _ hN
              exact ⟨hEa.1.trans hbs.1, hTb.1.trans hbs.2.1, hNc.1.trans hbs.2.2,
                hEa.2, hTb.2, hNc.2⟩
            constructor
            · rw [← hr]
              exact hshape
            · rw [← hc]
              intro e he
              rcases List.mem_append.mp he with he | he
              · exact hwf e he
              · have : e = (("RWG", basis.id, tol, sha1hex nrm, nt),
                    (⟨a, b, c⟩ : SingularCsr α)) := by
                  simpa using he
                rw [this]
                exact hshape

theorem C6_result_shape_witness : csrShapesOK wRes 2 ∧ cacheWF wCache :=
  C6_result_shape wSha wQuadN [] wBasis 2 (1/2) wNormals wRes wCache
    (fun e he => absurd he (List.not_mem_nil e)) (by rfl)

/-! ### Mode-set and pole-refiner claims -/

theorem conjC_conjC (z : CC) : conjC (conjC z) = z := by
  simp [conjC]

theorem closeTo_self {tol : ℚ} (h : 0 ≤ tol) (z : CC) : closeTo tol z z = true := by
  simp only [closeTo, sub_self, abs_zero, Bool.and_eq_true, decide_eq_true_eq]
  exact ⟨h, h⟩

/-- C8: completing a Mode Set with conjugates is idempotent — after one pass
every mode has a conjugate partner within tolerance, so a second pass
appends nothing and both the set and its length are unchanged. -/
theorem C8_add_conjugates_idempotent (tol : ℚ) (M : List Mode) (h : 0 ≤ tol) :
    addConjugates tol (addConjugates tol M) = addConjugates tol M ∧
    (addConjugates tol (addConjugates tol M)).length
      = (addConjugates tol M).length := by
  have hconj : ∀ m ∈ addConjugates tol M,
      hasConjugate tol (addConjugates tol M) m = true := by
    intro m hm
    unfold addConjugates at hm
    rcases List.mem_append.mp hm with hm | hm
    · by_cases hc : hasConjugate tol M m = true
      · obtain ⟨m', hm', hclose⟩ := List.any_eq_true.mp hc
        exact List.any_eq_true.mpr ⟨m', List.mem_append_left _ hm', hclose⟩
      · have hcf : hasConjugate tol M m = false := Bool.eq_false_iff.mpr hc
        have hmf : m ∈ M.filter (fun m => !hasConjugate tol M m) :=
          List.mem_filter.mpr ⟨hm, by rw [hcf]; rfl⟩
        have hconjmem : Mode.conj m ∈ addConjugates tol M :=
          List.mem_append_right _ (List.mem_map.mpr ⟨m, hmf, rfl⟩)
        apply List.any_eq_true.mpr
        refine ⟨Mode.conj m, hconjmem, ?_⟩
        show closeTo tol (Mode.conj m).s (conjC m.s) = true
        exact closeTo_self h _
    · obtain ⟨m0, hm0f, rfl⟩ := List.mem_map.mp hm
      have hm0 : m0 ∈ M := (List.mem_filter.mp hm0f).1
      apply List.any_eq_true.mpr
      refine ⟨m0, List.mem_append_left _ hm0, ?_⟩
      show closeTo tol m0.s (conjC (Mode.conj m0).s) = true
      rw [show (Mode.conj m0).s = conjC m0.s from rfl, conjC_conjC]
      exact closeTo_self h _
  have hfilter : (addConjugates tol M).filter
      (fun m => !hasConjugate tol (addConjugates tol M) m) = [] := by
    rw [List.filter_eq_nil_iff]
    intro m hm
    rw [hconj m hm]
    simp
  have hstep : addConjugates tol (addConjugates tol M)
      = addConjugates tol M
        ++ ((addConjugates tol M).filter
            (fun m => !hasConjugate tol (addConjugates tol M) m)).map Mode.conj := rfl
  have heq : addConjugates tol (addConjugates tol M) = addConjugates tol M := by
    rw [hstep, hfilter]
    simp
  exact ⟨heq, by rw [heq]⟩

def wModes : List Mode :=
  [⟨(0, 1), [(1, 0)], [(0, 1)]⟩, ⟨(5, -1), [], []⟩]

theorem C8_add_conjugates_idempotent_witness :
    addConjugates 1 (addConjugates 1 wModes) = addConjugates 1 wModes ∧
    (addConjugates 1 (addConjugates 1 wModes)).length
      = (addConjugates 1 wModes).length :=
  C8_add_conjugates_idempotent 1 wModes (by norm_num)

/-- C9: the Pole Refiner returns at most as many refined modes as it was
given estimates, and every returned mode comes from an estimate whose
iteration converged within the `max_iter` budget — a non-converging estimate
is dropped from the result rather than reported as an error. -/
theorem C9_refiner_drops (step : CC → CC) (tol : ℚ) (max_iter : Nat)
    (estimates : List CC) :
    (refinePoles step tol max_iter estimates).length ≤ estimates.length ∧
    ∀ s ∈ refinePoles step tol max_iter estimates,
      ∃ e ∈ estimates, refineOne step tol max_iter e = some s := by
  refine ⟨List.length_filterMap_le _ _, ?_⟩
  intro s hs
  exact List.mem_filterMap.mp hs

end OpenModes
